import Mathlib

/-!
A shallow embedding of the WordleBot solver (`src/main.cpp`) and proofs about
its specification.

Modelling conventions:
* C++ `std::string` becomes `List Char` (`Str` below).
* The global `unordered_set<string> words` becomes a `List Str`; an
  `unordered_set` has no specified iteration order, so theorems quantify over
  an arbitrary list order and use `Nodup` where set-ness matters.
* The per-letter table `int wordCount[26]` becomes a function `Char → Int`;
  a C truth test `wordCount[c]` is modelled as `cnt c ≠ 0` (C treats any
  nonzero value, including negative ones, as true).
* The global map `guessWordMap` built by `generateGuessWordMap` is modelled
  by its lookup function: the set stored under key `g ++ r` is exactly the
  set of `w ∈ words` such that some `g' ∈ words` has `g' ++ getResult g' w`
  equal to that key (`guessWordMapAt`), and `possibleWords` is the simplified
  lookup used where all words are known to have length 5 (the two agree then,
  because a length-10 key splits uniquely into guess and result).
* File I/O is modelled by passing the file contents as an `Option` value
  (`none` = the stream failed to open).
-/

namespace WordleBot

abbrev Str := List Char

/-- Decrement the table entry of one character (`wordCount[c]--`). -/
def decC (cnt : Char → Int) (c : Char) : Char → Int :=
  fun x => if x = c then cnt x - 1 else cnt x

/-- The table built by `for (char letter : word) wordCount[letter-'A']++`. -/
def wordCount (w : Str) : Char → Int :=
  fun c => (w.count c : Int)

/-- Green pass, mark: `if (letter == word[i]) result[i] = '2'`. -/
def greenMark (gi wi : Char) : Char :=
  if gi = wi then '2' else '0'

/-- Green pass, table update: on a match, `if (!LABEL_ALL_DUPES) wordCount[letter-'A']--`. -/
def greenCnt (dupes : Bool) (gi wi : Char) (cnt : Char → Int) : Char → Int :=
  if gi = wi then (if dupes then cnt else decC cnt gi) else cnt

/-- Yellow pass, mark: `if (result[i] != '2' && wordCount[chk-'A']) result[i] = '1'`.
`chk` is the character whose table entry is tested; in the source this is the
variable `letter`, which at position 0 still holds `guess[4]` (it is not
reassigned between the last green block and the first yellow block). -/
def yellowMark (ri chk : Char) (cnt : Char → Int) : Char :=
  if ri ≠ '2' ∧ cnt chk ≠ 0 then '1' else ri

/-- Yellow pass, table update: inside the same test,
`if (!LABEL_ALL_DUPES) wordCount[guess[i]-'A']--`; `dc` is the decremented
character `guess[i]` (which at position 0 differs from the tested `chk`). -/
def yellowCnt (dupes : Bool) (ri chk dc : Char) (cnt : Char → Int) : Char → Int :=
  if ri ≠ '2' ∧ cnt chk ≠ 0 then (if dupes then cnt else decC cnt dc) else cnt

/-- `getResult(guess, word)` from `src/main.cpp` (the pure computation, without
the memo table; the memoised wrapper is `getResultMemo` below). The argument
`dupes` is the global `LABEL_ALL_DUPES`. Feedback characters: '0' = grey,
'1' = yellow, '2' = green. The unrolled green pass runs first; then the
unrolled yellow pass, whose first block tests the stale `letter == guess[4]`
but decrements `guess[0]`, exactly as the source does. Inputs that are not
five characters long index out of bounds in C++ (undefined behaviour); the
model returns `[]` for them and every theorem restricts to length-5 words. -/
def getResult (dupes : Bool) (guess word : Str) : Str :=
  match guess, word with
  | [g0, g1, g2, g3, g4], [w0, w1, w2, w3, w4] =>
      let cnt0 := wordCount [w0, w1, w2, w3, w4]
      let r0 := greenMark g0 w0
      let c1 := greenCnt dupes g0 w0 cnt0
      let r1 := greenMark g1 w1
      let c2 := greenCnt dupes g1 w1 c1
      let r2 := greenMark g2 w2
      let c3 := greenCnt dupes g2 w2 c2
      let r3 := greenMark g3 w3
      let c4 := greenCnt dupes g3 w3 c3
      let r4 := greenMark g4 w4
      let c5 := greenCnt dupes g4 w4 c4
      let s0 := yellowMark r0 g4 c5
      let d1 := yellowCnt dupes r0 g4 g0 c5
      let s1 := yellowMark r1 g1 d1
      let d2 := yellowCnt dupes r1 g1 g1 d1
      let s2 := yellowMark r2 g2 d2
      let d3 := yellowCnt dupes r2 g2 g2 d2
      let s3 := yellowMark r3 g3 d3
      let d4 := yellowCnt dupes r3 g3 g3 d3
      let s4 := yellowMark r4 g4 d4
      [s0, s1, s2, s3, s4]
  | _, _ => []

/-- The set stored by `generateGuessWordMap` under the string key `key`:
`guessWordMap[guess+getResult(guess, word)].insert(word)` runs for every pair
`(guess, word)` in `words × words`, so `w` sits under `key` exactly when some
guess in `words` produced that key with `w`. -/
def guessWordMapAt (words : List Str) (key : Str) : List Str :=
  words.filter (fun w => words.any (fun g => g ++ getResult false g w == key))

/-- `guessWordMap[guess+result]` (with `operator[]` returning an empty set for
an absent key), specialised to the case used throughout: all dictionary words
have length 5, so the key `guess ++ result` splits uniquely and the stored set
is `{w ∈ words | getResult guess w = result}` when `guess ∈ words`, empty
otherwise. `guessWordMapAt_eq_possibleWords` below proves the two agree. -/
def possibleWords (words : List Str) (guess result : Str) : List Str :=
  if guess ∈ words then
    words.filter (fun w => decide (getResult false guess w = result))
  else []

/-- `updateValidWords`: rebuild `validWords` as the members of
`guessWordMap[guess+result]` that are also in the current `validWords`. -/
def updateValidWords (words validWords : List Str) (guess result : Str) : List Str :=
  (possibleWords words guess result).filter (fun w => decide (w ∈ validWords))

/-- `countNewValidWords`: the same intersection, but only counted. -/
def countNewValidWords (words validWords : List Str) (guess result : Str) : Nat :=
  ((possibleWords words guess result).filter (fun w => decide (w ∈ validWords))).length

/-- The score `total` that `makeGuess` accumulates for one candidate guess:
the sum over every answer still in `validWords` of how many valid words are
left indistinguishable from that answer. -/
def score (words validWords : List Str) (g : Str) : Nat :=
  (validWords.map (fun w => countNewValidWords words validWords g (getResult false g w))).sum

/-- One iteration of the `makeGuess` loop: replace the running best only when
the new total is strictly smaller (`if (total < minPossibleWords)`). -/
def mgStep (words validWords : List Str) (st : Str × Nat) (g : Str) : Str × Nat :=
  if score words validWords g < st.2 then (g, score words validWords g) else st

/-- The `makeGuess` loop over the whole guess pool. -/
def mgFold (words validWords : List Str) (st : Str × Nat) (pool : List Str) : Str × Nat :=
  pool.foldl (mgStep words validWords) st

/-- `makeGuess(wordPool, validWords)`: starts from
`bestGuess = *validWords.begin()` and `minPossibleWords = pow(n, 2)`.
The C++ iterates an `unordered_set` in unspecified order; the model takes the
pool and candidate set as lists, so every theorem holds for every order. -/
def makeGuess (words wordPool validWords : List Str) : Str :=
  (mgFold words validWords (validWords.headI, validWords.length ^ 2) wordPool).1

/-- The guess chosen in one iteration of `solve`: the cached first guess in
round 1, `makeGuess(validWords, validWords)` in rounds other than 5, and
`makeGuess(words, validWords)` in round 5. -/
def solveGuess (words : List Str) (firstGuess : Str) (validWords : List Str) (k : Nat) : Str :=
  if k = 1 then firstGuess
  else if k ≠ 5 then makeGuess words validWords validWords
  else makeGuess words words validWords

/-- The `while (true)` loop of `solve`, with explicit fuel standing for the
number of remaining iterations (the C++ loop has no bound; `solveGo_bound`
proves `words.length` fuel always suffices). -/
def solveGo (words : List Str) (firstGuess target : Str) :
    Nat → List Str → Nat → Option Nat
  | 0, _, _ => none
  | fuel + 1, validWords, k =>
      if solveGuess words firstGuess validWords k = target then some k
      else
        solveGo words firstGuess target fuel
          (updateValidWords words validWords (solveGuess words firstGuess validWords k)
            (getResult false (solveGuess words firstGuess validWords k) target))
          (k + 1)

/-- `solve(word)`: starts with `validWords` = the full word list and
`numGuesses = 1`, given enough fuel for `words.length` iterations. -/
def solve (words : List Str) (firstGuess target : Str) : Option Nat :=
  solveGo words firstGuess target words.length words 1

/-- `loadWords()`: the argument is the contents of `wordlewords.txt` as a list
of lines, or `none` when the stream failed to open. Returns the exit code
(1 = "File not found", 0 = success) and the resulting global `words` set:
every line uppercased and inserted into an `unordered_set` (modelled by
`dedup`). There is no emptiness check: an existing but empty file yields
exit code 0 and an empty dictionary. -/
def loadWords (file : Option (List Str)) : Nat × List Str :=
  match file with
  | none => (1, [])
  | some lines => (0, (lines.map (fun l => l.map Char.toUpper)).dedup)

/-- `loadGuess()`: the argument is the first line of `guess1.txt`, or `none`
when the stream failed to open (file absent). Returns the exit code and the
resulting `firstGuess`. An absent file returns 1 ("File not found"), which
makes `main` abort; an existing file whose first line is empty triggers
recomputation via `makeGuess(words, words)`. -/
def loadGuess (file : Option Str) (words : List Str) : Nat × Str :=
  match file with
  | none => (1, [])
  | some line => if line ≠ [] then (0, line) else (0, makeGuess words words words)

/-- Lookup in the `guessWordResult` memo map (`find` on an `unordered_map`,
modelled as an association list). -/
def memoLookup : List (Str × Str) → Str → Option Str
  | [], _ => none
  | e :: rest, k => if e.1 = k then some e.2 else memoLookup rest k

/-- The memoised entry point of `getResult`: consult `guessWordResult` under
key `guess+word`; on a miss, compute and store the fresh value. Returns the
result together with the updated table. -/
def getResultMemo (dupes : Bool) (tbl : List (Str × Str)) (guess word : Str) :
    Str × List (Str × Str) :=
  match memoLookup tbl (guess ++ word) with
  | some r => (r, tbl)
  | none => (getResult dupes guess word, (guess ++ word, getResult dupes guess word) :: tbl)

/-- A memo table is well-formed when every entry was written by the
computation itself: its key is `g ++ w` for length-5 words and its value is
the fresh `getResult` of that pair. All writes to `guessWordResult` in the
source store exactly the freshly computed result. -/
def goodTbl (dupes : Bool) (tbl : List (Str × Str)) : Prop :=
  ∀ e ∈ tbl, ∃ g w : Str, g.length = 5 ∧ w.length = 5 ∧
    e.1 = g ++ w ∧ e.2 = getResult dupes g w

/-! ### Basic facts about the feedback evaluator -/

theorem greenMark_eq_green {gi wi : Char} (h : greenMark gi wi = '2') : gi = wi := by
  unfold greenMark at h
  split_ifs at h with hc
  · exact hc
  · exact absurd h (by decide)

theorem yellowMark_eq_green {r chk : Char} {cnt : Char → Int}
    (h : yellowMark r chk cnt = '2') : r = '2' := by
  unfold yellowMark at h
  split_ifs at h with hc
  · exact absurd h (by decide)
  · exact h

/-- Guessing the word itself yields the all-green pattern. -/
theorem getResult_self (d : Bool) (a b c e f : Char) :
    getResult d [a, b, c, e, f] [a, b, c, e, f] = ['2', '2', '2', '2', '2'] := by
  simp [getResult, greenMark, yellowMark]

/-- An all-green pattern only arises from guessing the word itself. -/
theorem eq_of_getResult_green {d : Bool} {g0 g1 g2 g3 g4 w0 w1 w2 w3 w4 : Char}
    (h : getResult d [g0, g1, g2, g3, g4] [w0, w1, w2, w3, w4] = ['2', '2', '2', '2', '2']) :
    ([g0, g1, g2, g3, g4] : Str) = [w0, w1, w2, w3, w4] := by
  simp only [getResult, List.cons.injEq, and_true] at h
  obtain ⟨h0, h1, h2, h3, h4⟩ := h
  have e0 := greenMark_eq_green (yellowMark_eq_green h0)
  have e1 := greenMark_eq_green (yellowMark_eq_green h1)
  have e2 := greenMark_eq_green (yellowMark_eq_green h2)
  have e3 := greenMark_eq_green (yellowMark_eq_green h3)
  have e4 := greenMark_eq_green (yellowMark_eq_green h4)
  simp [e0, e1, e2, e3, e4]

theorem exists_five {l : Str} (h : l.length = 5) :
    ∃ a b c d e : Char, l = [a, b, c, d, e] := by
  rcases l with _ | ⟨a, _ | ⟨b, _ | ⟨c, _ | ⟨d, _ | ⟨e, _ | ⟨f, t⟩⟩⟩⟩⟩⟩
  · simp at h
  · simp at h
  · simp at h
  · simp at h
  · simp at h
  · exact ⟨a, b, c, d, e, rfl⟩
  · simp only [List.length_cons] at h
    omega

/-- For length-5 words, the feedback pattern is all-green iff guess = word. -/
theorem getResult_green_iff {d : Bool} {g w : Str} (hg : g.length = 5) (hw : w.length = 5) :
    getResult d g w = ['2', '2', '2', '2', '2'] ↔ g = w := by
  obtain ⟨a, b, c, e, f, rfl⟩ := exists_five hg
  obtain ⟨a', b', c', e', f', rfl⟩ := exists_five hw
  constructor
  · exact eq_of_getResult_green
  · intro h
    rw [h]
    exact getResult_self d a' b' c' e' f'

/-! ### List helper lemmas -/

theorem headI_mem {l : List Str} (h : l ≠ []) : l.headI ∈ l := by
  cases l with
  | nil => exact absurd rfl h
  | cons a t => exact List.mem_cons_self a t

theorem length_le_of_nodup_subset {l m : List Str} (hl : l.Nodup) (hs : l ⊆ m) :
    l.length ≤ m.length := by
  calc l.length = l.toFinset.card := (List.toFinset_card_of_nodup hl).symm
    _ ≤ m.toFinset.card := Finset.card_le_card (fun x hx =>
        List.mem_toFinset.2 (hs (List.mem_toFinset.1 hx)))
    _ ≤ m.length := List.toFinset_card_le m

theorem length_lt_of_nodup_subset_missing {l m : List Str} (hl : l.Nodup) (hs : l ⊆ m)
    {x : Str} (hx : x ∈ m) (hnx : x ∉ l) : l.length < m.length := by
  have hsub : l.toFinset ⊆ m.toFinset.erase x := by
    intro y hy
    have hyl := List.mem_toFinset.1 hy
    exact Finset.mem_erase.2 ⟨fun he => hnx (he ▸ hyl), List.mem_toFinset.2 (hs hyl)⟩
  have hcard : l.toFinset.card ≤ m.toFinset.card - 1 := by
    have := Finset.card_le_card hsub
    rwa [Finset.card_erase_of_mem (List.mem_toFinset.2 hx)] at this
  have hpos : 0 < m.toFinset.card :=
    Finset.card_pos.2 ⟨x, List.mem_toFinset.2 hx⟩
  have h1 : l.length ≤ m.toFinset.card - 1 := by
    rwa [← List.toFinset_card_of_nodup hl]
  have h2 : m.toFinset.card ≤ m.length := List.toFinset_card_le m
  omega

theorem mem_of_nodup_subset_length_eq {l m : List Str} (hl : l.Nodup) (hs : l ⊆ m)
    (hlen : m.length ≤ l.length) : ∀ x ∈ m, x ∈ l := by
  have hsub : l.toFinset ⊆ m.toFinset := fun x hx =>
    List.mem_toFinset.2 (hs (List.mem_toFinset.1 hx))
  have hcard : m.toFinset.card ≤ l.toFinset.card := by
    rw [List.toFinset_card_of_nodup hl]
    exact le_trans (List.toFinset_card_le m) hlen
  have heq := Finset.eq_of_subset_of_card_le hsub hcard
  intro x hx
  have : x ∈ l.toFinset := heq ▸ List.mem_toFinset.2 hx
  exact List.mem_toFinset.1 this

/-! ### The partition map and candidate filtering -/

theorem mem_possibleWords {ws : List Str} {g r w : Str} :
    w ∈ possibleWords ws g r ↔ g ∈ ws ∧ w ∈ ws ∧ getResult false g w = r := by
  unfold possibleWords
  split_ifs with hg
  · simp [List.mem_filter, hg]
  · simp [hg]

theorem mem_updateValidWords {ws valid : List Str} {g r w : Str} :
    w ∈ updateValidWords ws valid g r ↔
      (g ∈ ws ∧ w ∈ ws ∧ getResult false g w = r) ∧ w ∈ valid := by
  unfold updateValidWords
  simp [List.mem_filter, mem_possibleWords]

theorem updateValidWords_subset (ws valid : List Str) (g r : Str) :
    updateValidWords ws valid g r ⊆ valid :=
  fun _ hw => (mem_updateValidWords.1 hw).2

theorem updateValidWords_nodup {ws : List Str} (valid : List Str) (g r : Str)
    (h : ws.Nodup) : (updateValidWords ws valid g r).Nodup := by
  unfold updateValidWords possibleWords
  split_ifs with hg
  · exact ((h.filter _).filter _)
  · exact List.Nodup.filter _ List.nodup_nil

/-- The true target always survives the filtering step of `solve`: the result
passed to `updateValidWords` is the feedback the target itself produced. -/
theorem target_mem_updateValidWords {ws valid : List Str} {g t : Str}
    (hg : g ∈ ws) (ht : t ∈ ws) (hv : t ∈ valid) :
    t ∈ updateValidWords ws valid g (getResult false g t) :=
  mem_updateValidWords.2 ⟨⟨hg, ht, rfl⟩, hv⟩

/-- A wrong guess never survives its own feedback filter. -/
theorem guess_not_mem_updateValidWords {ws valid : List Str} {g t : Str}
    (hg5 : g.length = 5) (ht5 : t.length = 5) (hne : g ≠ t) :
    g ∉ updateValidWords ws valid g (getResult false g t) := by
  intro hmem
  obtain ⟨⟨-, -, hres⟩, -⟩ := mem_updateValidWords.1 hmem
  obtain ⟨a, b, c, e, f, rfl⟩ := exists_five hg5
  rw [getResult_self] at hres
  exact hne ((getResult_green_iff hg5 ht5).1 hres.symm)

/-- The string-keyed map built by `generateGuessWordMap` agrees with the
direct by-pattern lookup: a length-10 key splits uniquely into its guess and
result halves when every word has length 5. -/
theorem guessWordMapAt_eq_possibleWords {ws : List Str} {g : Str}
    (h5 : ∀ w ∈ ws, w.length = 5) (hg : g ∈ ws) (r : Str) :
    guessWordMapAt ws (g ++ r) = possibleWords ws g r := by
  unfold guessWordMapAt possibleWords
  rw [if_pos hg]
  apply List.filter_congr
  intro w _
  rw [Bool.eq_iff_iff]
  simp only [List.any_eq_true, beq_iff_eq, decide_eq_true_eq]
  constructor
  · rintro ⟨g', hg', hkey⟩
    obtain ⟨hgg, hrr⟩ := List.append_inj hkey ((h5 g' hg').trans (h5 g hg).symm)
    exact hgg ▸ hrr
  · intro hres
    exact ⟨g, hg, by rw [hres]⟩

/-! ### The guess-selection loop -/

/-- Invariant of the `makeGuess` loop: the fold either never replaces the
initial state, or ends on a pool member whose score is the running minimum
and strictly below the initial minimum. -/
theorem mgFold_cases (ws valid : List Str) :
    ∀ (pool : List Str) (st : Str × Nat),
      mgFold ws valid st pool = st ∨
      ((mgFold ws valid st pool).1 ∈ pool ∧
        score ws valid (mgFold ws valid st pool).1 = (mgFold ws valid st pool).2 ∧
        (mgFold ws valid st pool).2 < st.2) := by
  intro pool
  induction pool with
  | nil => intro st; exact Or.inl rfl
  | cons g rest ih =>
    intro st
    have hfold : mgFold ws valid st (g :: rest) =
        mgFold ws valid (mgStep ws valid st g) rest := rfl
    by_cases hc : score ws valid g < st.2
    · have hstep : mgStep ws valid st g = (g, score ws valid g) := by
        simp [mgStep, hc]
      rw [hfold, hstep]
      rcases ih (g, score ws valid g) with heq | ⟨hmem, hsc, hlt⟩
      · rw [heq]
        exact Or.inr ⟨List.mem_cons_self g rest, rfl, hc⟩
      · exact Or.inr ⟨List.mem_cons_of_mem g hmem, hsc, lt_trans hlt hc⟩
    · have hstep : mgStep ws valid st g = st := by
        simp [mgStep, hc]
      rw [hfold, hstep]
      rcases ih st with heq | ⟨hmem, hsc, hlt⟩
      · exact Or.inl heq
      · exact Or.inr ⟨List.mem_cons_of_mem g hmem, hsc, hlt⟩

/-- `makeGuess` returns either the untouched default `*validWords.begin()` or
a pool member whose score beat the initial bound `n²`. -/
theorem makeGuess_cases (ws pool valid : List Str) :
    makeGuess ws pool valid = valid.headI ∨
      (makeGuess ws pool valid ∈ pool ∧
        score ws valid (makeGuess ws pool valid) < valid.length ^ 2) := by
  unfold makeGuess
  rcases mgFold_cases ws valid pool (valid.headI, valid.length ^ 2) with heq | ⟨hmem, hsc, hlt⟩
  · rw [heq]
    exact Or.inl rfl
  · exact Or.inr ⟨hmem, hsc ▸ hlt⟩

/-- Against a singleton candidate set, every dictionary guess scores at
least 1 (the lone candidate always lands in its own partition class). -/
theorem one_le_score_singleton {ws : List Str} {w g : Str} (hw : w ∈ ws) (hg : g ∈ ws) :
    1 ≤ score ws [w] g := by
  have hmem : w ∈ (possibleWords ws g (getResult false g w)).filter
      (fun x => decide (x ∈ [w])) :=
    List.mem_filter.2 ⟨mem_possibleWords.2 ⟨hg, hw, rfl⟩, by simp⟩
  have hpos : 0 < ((possibleWords ws g (getResult false g w)).filter
      (fun x => decide (x ∈ [w]))).length :=
    List.length_pos.2 (List.ne_nil_of_mem hmem)
  simpa [score, countNewValidWords] using hpos

/-- With a singleton candidate set the fold never leaves its initial state. -/
theorem mgFold_singleton {ws : List Str} {w : Str} (hw : w ∈ ws) :
    ∀ pool : List Str, pool ⊆ ws → mgFold ws [w] (w, 1) pool = (w, 1) := by
  intro pool
  induction pool with
  | nil => intro _; rfl
  | cons g rest ih =>
    intro hsub
    have hg : g ∈ ws := hsub (List.mem_cons_self g rest)
    have hstep : mgStep ws [w] (w, 1) g = (w, 1) := by
      have := one_le_score_singleton hw hg
      simp only [mgStep]
      rw [if_neg (by omega)]
    have hfold : mgFold ws [w] (w, 1) (g :: rest) =
        mgFold ws [w] (mgStep ws [w] (w, 1) g) rest := rfl
    rw [hfold, hstep]
    exact ih (fun x hx => hsub (List.mem_cons_of_mem g hx))

/-- `makeGuess` on a singleton candidate set returns the lone candidate. -/
theorem makeGuess_singleton {ws pool : List Str} {w : Str}
    (hpool : pool ⊆ ws) (hw : w ∈ ws) : makeGuess ws pool [w] = w := by
  unfold makeGuess
  have h1 : ([w] : List Str).headI = w := rfl
  have h2 : ([w] : List Str).length ^ 2 = 1 := by norm_num
  rw [h1, h2, mgFold_singleton hw pool hpool]

/-! ### Termination of the game loop -/

theorem countNew_eq_update_length (ws valid : List Str) (g r : Str) :
    countNewValidWords ws valid g r = (updateValidWords ws valid g r).length := rfl

/-- When a guess fails to split the candidate set (every candidate produces
the same feedback as the target), its score degenerates to `n · |class|`. -/
theorem score_of_all_same {ws valid : List Str} {g t : Str}
    (hall : ∀ w ∈ valid, getResult false g w = getResult false g t) :
    score ws valid g =
      valid.length * countNewValidWords ws valid g (getResult false g t) := by
  unfold score
  have hmap : valid.map (fun w => countNewValidWords ws valid g (getResult false g w)) =
      List.replicate valid.length
        (countNewValidWords ws valid g (getResult false g t)) := by
    rw [List.eq_replicate_iff]
    refine ⟨by simp, ?_⟩
    intro b hb
    obtain ⟨w, hwv, hfw⟩ := List.mem_map.1 hb
    rw [← hfw, hall w hwv]
  rw [hmap, List.sum_replicate, smul_eq_mul]

/-- Main loop invariant: from any reachable state of `solve`, the loop
solves within `|validWords|` further iterations, because every iteration
either guesses the target or strictly shrinks the candidate set. -/
theorem solveGo_bound (ws : List Str) (fg t : Str)
    (hwnd : ws.Nodup) (h5 : ∀ w ∈ ws, w.length = 5) (ht : t ∈ ws) :
    ∀ (fuel : Nat) (valid : List Str) (k : Nat),
      valid.Nodup → valid ⊆ ws → t ∈ valid → 1 ≤ k → (k = 1 → fg ∈ valid) →
      valid.length ≤ fuel →
      ∃ m, solveGo ws fg t fuel valid k = some m ∧ m + 1 ≤ k + valid.length := by
  intro fuel
  induction fuel with
  | zero =>
    intro valid k _ _ htv _ _ hlen
    have := List.length_pos.2 (List.ne_nil_of_mem htv)
    omega
  | succ fuel ih =>
    intro valid k hvnd hvsub htv hk1 hkfg hlen
    have hvne : valid ≠ [] := List.ne_nil_of_mem htv
    have hvpos : 0 < valid.length := List.length_pos.2 hvne
    set g := solveGuess ws fg valid k with hgdef
    by_cases hgt : g = t
    · refine ⟨k, ?_, by omega⟩
      simp only [solveGo]
      rw [← hgdef, if_pos hgt]
    · have hgw : g ∈ ws := by
        by_cases hk : k = 1
        · have : g = fg := by rw [hgdef]; simp [solveGuess, hk]
          exact this ▸ hvsub (hkfg hk)
        · by_cases hk5 : k = 5
          · have hg5 : g = makeGuess ws ws valid := by
              rw [hgdef]; simp [solveGuess, hk, hk5]
            rcases makeGuess_cases ws ws valid with h | ⟨hmem, _⟩
            · exact hvsub (hg5 ▸ h ▸ headI_mem hvne)
            · exact hg5 ▸ hmem
          · have hgv : g = makeGuess ws valid valid := by
              rw [hgdef]; simp [solveGuess, hk, hk5]
            rcases makeGuess_cases ws valid valid with h | ⟨hmem, _⟩
            · exact hvsub (hgv ▸ h ▸ headI_mem hvne)
            · exact hvsub (hgv ▸ hmem)
      set valid' := updateValidWords ws valid g (getResult false g t) with hvdef
      have hsub' : valid' ⊆ valid := updateValidWords_subset ws valid g _
      have hnd' : valid'.Nodup := updateValidWords_nodup valid g _ hwnd
      have htv' : t ∈ valid' := target_mem_updateValidWords hgw ht htv
      have hlt : valid'.length < valid.length := by
        by_cases hgv : g ∈ valid
        · exact length_lt_of_nodup_subset_missing hnd' hsub' hgv
            (guess_not_mem_updateValidWords (h5 g hgw) (h5 t ht) hgt)
        · have hk : k ≠ 1 := by
            intro hk
            apply hgv
            have : g = fg := by rw [hgdef]; simp [solveGuess, hk]
            exact this ▸ hkfg hk
          have hk5 : k = 5 := by
            by_contra hk5
            have hgmk : g = makeGuess ws valid valid := by
              rw [hgdef]; simp [solveGuess, hk, hk5]
            rcases makeGuess_cases ws valid valid with h | ⟨hmem, _⟩
            · exact hgv (hgmk ▸ h ▸ headI_mem hvne)
            · exact hgv (hgmk ▸ hmem)
          have hgmk : g = makeGuess ws ws valid := by
            rw [hgdef]; simp [solveGuess, hk, hk5]
          rcases makeGuess_cases ws ws valid with h | ⟨-, hsc⟩
          · exact absurd (hgmk ▸ h ▸ headI_mem hvne) hgv
          · by_contra hnlt
            have hle : valid'.length ≤ valid.length :=
              length_le_of_nodup_subset hnd' hsub'
            have hge : valid.length ≤ valid'.length := by omega
            have hallmem := mem_of_nodup_subset_length_eq hnd' hsub' hge
            have hall : ∀ w ∈ valid, getResult false g w = getResult false g t :=
              fun w hwv => (mem_updateValidWords.1 (hallmem w hwv)).1.2.2
            rw [← hgmk] at hsc
            rw [score_of_all_same hall, countNew_eq_update_length, ← hvdef,
              le_antisymm hle hge, ← pow_two] at hsc
            exact lt_irrefl _ hsc
      have hstep : solveGo ws fg t (fuel + 1) valid k = solveGo ws fg t fuel valid' (k + 1) := by
        simp only [solveGo]
        rw [← hgdef, if_neg hgt, ← hvdef]
      obtain ⟨m, hm, hb⟩ := ih valid' (k + 1) hnd' (fun x hx => hvsub (hsub' hx)) htv'
        (by omega) (fun h => absurd h (by omega)) (by omega)
      exact ⟨m, by rw [hstep]; exact hm, by omega⟩

/-! ### The memo table -/

theorem memoLookup_some :
    ∀ {tbl : List (Str × Str)} {k r : Str},
      memoLookup tbl k = some r → ∃ e ∈ tbl, e.1 = k ∧ e.2 = r := by
  intro tbl
  induction tbl with
  | nil =>
    intro k r h
    exact absurd h (by simp [memoLookup])
  | cons e rest ih =>
    intro k r h
    unfold memoLookup at h
    split_ifs at h with he
    · exact ⟨e, List.mem_cons_self e rest, he, Option.some.inj h⟩
    · obtain ⟨e', he', hk, hr⟩ := ih h
      exact ⟨e', List.mem_cons_of_mem e he', hk, hr⟩

/-! ### Concrete words used by counterexamples and witnesses -/

def wA : Str := ['A', 'A', 'A', 'A', 'A']

def wB : Str := ['B', 'B', 'B', 'B', 'B']

def wC : Str := ['A', 'A', 'B', 'B', 'B']

def ws2 : List Str := [wA, wB]

def ws3 : List Str := [wA, wB, wC]

def tblEx : List (Str × Str) := [(wA ++ wB, ['0', '0', '0', '0', '0'])]

/-! ### Claim theorems -/

/-- C1: evaluation of the code at a failing input. The claim says the
Yellow/Gray decision at each non-Green position `i` tests `g[i]`'s remaining
count, and in particular position 0 depends only on `g[0]`'s count. The code
instead tests the stale `letter == guess[4]` at position 0: against target
"ABCDE", guess "EZZZZ" gets Gray at position 0 even though 'E' has remaining
count 1 (the claim demands Yellow), while guess "EZZZB" — differing only at
position 4 — gets Yellow at position 0. -/
theorem c1_position0_stale_letter_eval :
    getResult false ['E', 'Z', 'Z', 'Z', 'Z'] ['A', 'B', 'C', 'D', 'E'] =
      ['0', '0', '0', '0', '0'] ∧
    (['A', 'B', 'C', 'D', 'E'] : Str).count 'E' = 1 ∧
    getResult false ['E', 'Z', 'Z', 'Z', 'B'] ['A', 'B', 'C', 'D', 'E'] =
      ['1', '0', '0', '0', '1'] := by
  decide

/-- C2: evaluation of the code at failing inputs. Guess "ZZZZA" against
target "ABBBB" is marked all-Yellow although 'Z' does not occur in the target
at all: the position-0 block tests `guess[4]`'s count but decrements
`guess[0]`'s, driving it to −1, which later positions treat as nonzero.
Also, "SPEED" against "ERASE" evaluates to "00110": two Yellow 'E's (the
claim asserts exactly one Green/Yellow 'E'; "ERASE" in fact has two 'E's). -/
theorem c2_duplicate_budget_eval :
    getResult false ['Z', 'Z', 'Z', 'Z', 'A'] ['A', 'B', 'B', 'B', 'B'] =
      ['1', '1', '1', '1', '1'] ∧
    (['A', 'B', 'B', 'B', 'B'] : Str).count 'Z' = 0 ∧
    getResult false ['S', 'P', 'E', 'E', 'D'] ['E', 'R', 'A', 'S', 'E'] =
      ['0', '0', '1', '1', '0'] ∧
    (['E', 'R', 'A', 'S', 'E'] : Str).count 'E' = 2 := by
  decide

/-- C3 counterexample: a tie where the incumbent best guess is not a member
of `validWords` while the tying newcomer is — the claimed tie-break would
switch to the newcomer "AAAAA", but `makeGuess` keeps "AABBB" because its
comparison is strict (`total < minPossibleWords`). -/
theorem c3_tiebreak_counterexample :
    makeGuess ws3 [wC, wA] [wA, wB] = wC ∧
    score ws3 [wA, wB] wC = score ws3 [wA, wB] wA ∧
    wC ∉ ([wA, wB] : List Str) ∧ wA ∈ ([wA, wB] : List Str) := by
  decide

/-- C3 (amended): there is no tie-break at all — a newly examined guess whose
score is not strictly below the running minimum never changes the outcome,
whether or not the current best lies in `validWords`. -/
theorem c3_ties_never_replace (ws valid A B : List Str) (g : Str)
    (h : (mgFold ws valid (valid.headI, valid.length ^ 2) A).2 ≤ score ws valid g) :
    makeGuess ws (A ++ g :: B) valid = makeGuess ws (A ++ B) valid := by
  have hkeep : mgStep ws valid (mgFold ws valid (valid.headI, valid.length ^ 2) A) g =
      mgFold ws valid (valid.headI, valid.length ^ 2) A := by
    unfold mgStep
    rw [if_neg (not_lt.2 h)]
  have happ : ∀ (X Y : List Str) (st : Str × Nat),
      mgFold ws valid st (X ++ Y) = mgFold ws valid (mgFold ws valid st X) Y :=
    fun X Y st => List.foldl_append (mgStep ws valid) st X Y
  have hcons : ∀ (Y : List Str) (st : Str × Nat),
      mgFold ws valid st (g :: Y) = mgFold ws valid (mgStep ws valid st g) Y :=
    fun Y st => rfl
  unfold makeGuess
  rw [happ A (g :: B), happ A B, hcons B, hkeep]

/-- C3 witness: the amended theorem applied at a concrete tie. -/
theorem c3_witness :
    (mgFold ws3 [wA, wB] (([wA, wB] : List Str).headI, ([wA, wB] : List Str).length ^ 2)
        [wC]).2 ≤ score ws3 [wA, wB] wA ∧
    makeGuess ws3 [wC, wA] [wA, wB] = makeGuess ws3 [wC] [wA, wB] :=
  ⟨by decide, c3_ties_never_replace ws3 [wA, wB] [wC] [] wA (by decide)⟩

/-- C4: one filtering step of a simulated game never grows the candidate set
(the new set is a subset of the old one and its size is non-increasing), and
when the guess is a dictionary word and the feedback is the one the target
itself produced, the target survives the filter. -/
theorem c4_candidate_set_invariant (ws valid : List Str) (g t : Str) (hnd : ws.Nodup) :
    updateValidWords ws valid g (getResult false g t) ⊆ valid ∧
    (updateValidWords ws valid g (getResult false g t)).length ≤ valid.length ∧
    (g ∈ ws → t ∈ ws → t ∈ valid →
      t ∈ updateValidWords ws valid g (getResult false g t)) := by
  refine ⟨updateValidWords_subset ws valid g _, ?_,
    fun hg ht hv => target_mem_updateValidWords hg ht hv⟩
  exact length_le_of_nodup_subset (updateValidWords_nodup valid g _ hnd)
    (updateValidWords_subset ws valid g _)

/-- C4 witness: the invariant applied at a concrete filtering step. -/
theorem c4_witness :
    ws2.Nodup ∧ wB ∈ updateValidWords ws2 ws2 wA (getResult false wA wB) :=
  ⟨by decide,
    (c4_candidate_set_invariant ws2 ws2 wA wB (by decide)).2.2 (by decide) (by decide)
      (by decide)⟩

/-- C5: for a dictionary of length-5 words and any guess in it, the sets
stored in `guessWordMap` under the keys `g ++ p` partition the dictionary:
every dictionary word belongs to the set keyed by `g ++ getResult g w`, any
member of the set keyed by `g ++ p` is a dictionary word whose feedback is
exactly `p`, and no word lies under two distinct patterns. -/
theorem c5_partition_soundness (ws : List Str) (g : Str)
    (h5 : ∀ w ∈ ws, w.length = 5) (hg : g ∈ ws) :
    (∀ w ∈ ws, w ∈ guessWordMapAt ws (g ++ getResult false g w)) ∧
    (∀ p w : Str, w ∈ guessWordMapAt ws (g ++ p) → w ∈ ws ∧ getResult false g w = p) ∧
    (∀ p q w : Str,
      w ∈ guessWordMapAt ws (g ++ p) → w ∈ guessWordMapAt ws (g ++ q) → p = q) := by
  have hmap := guessWordMapAt_eq_possibleWords h5 hg
  refine ⟨?_, ?_, ?_⟩
  · intro w hw
    rw [hmap]
    exact mem_possibleWords.2 ⟨hg, hw, rfl⟩
  · intro p w hwp
    rw [hmap] at hwp
    obtain ⟨-, hw, hres⟩ := mem_possibleWords.1 hwp
    exact ⟨hw, hres⟩
  · intro p q w hwp hwq
    rw [hmap] at hwp hwq
    exact ((mem_possibleWords.1 hwp).2.2).symm.trans (mem_possibleWords.1 hwq).2.2

/-- C5 witness: partition soundness applied at a concrete dictionary. -/
theorem c5_witness :
    wA ∈ ws2 ∧ wB ∈ guessWordMapAt ws2 (wA ++ getResult false wA wB) :=
  ⟨by decide,
    (c5_partition_soundness ws2 wA (by decide) (by decide)).1 wB (by decide)⟩

/-- C6: for every target in the dictionary (all words of length 5, no
duplicates, first guess drawn from the dictionary as the spec's First Guess
is), `solve` terminates and needs at most `|Dictionary|` guesses. -/
theorem c6_solve_terminates (ws : List Str) (fg t : Str)
    (hnd : ws.Nodup) (h5 : ∀ w ∈ ws, w.length = 5) (hfg : fg ∈ ws) (ht : t ∈ ws) :
    ∃ k, solve ws fg t = some k ∧ k ≤ ws.length := by
  obtain ⟨m, hm, hb⟩ := solveGo_bound ws fg t hnd h5 ht ws.length ws 1 hnd
    (fun x hx => hx) ht (by omega) (fun _ => hfg) (le_refl _)
  exact ⟨m, hm, by omega⟩

/-- C6 witness: termination applied at a concrete dictionary and target. -/
theorem c6_witness : ws2.Nodup ∧ (solve ws2 wA wB).isSome = true := by
  refine ⟨by decide, ?_⟩
  obtain ⟨m, hm, -⟩ :=
    c6_solve_terminates ws2 wA wB (by decide) (by decide) (by decide) (by decide)
  rw [hm]
  rfl

/-- C7: once the candidate set is the singleton `[w]`, `makeGuess` returns
`w` for every guess pool drawn from the dictionary, and every later round of
the simulator (any round other than the cache-driven round 1) guesses `w`
and ends the game at that round's count. -/
theorem c7_singleton_candidate (ws pool : List Str) (fg w : Str)
    (hpool : pool ⊆ ws) (hw : w ∈ ws) :
    makeGuess ws pool [w] = w ∧
    (∀ fuel k : Nat, k ≠ 1 → solveGo ws fg w (fuel + 1) [w] k = some k) := by
  refine ⟨makeGuess_singleton hpool hw, ?_⟩
  intro fuel k hk
  have hguess : solveGuess ws fg [w] k = w := by
    unfold solveGuess
    rw [if_neg hk]
    by_cases hk5 : k = 5
    · rw [if_neg (fun h => h hk5)]
      exact makeGuess_singleton (fun x hx => hx) hw
    · rw [if_pos hk5]
      exact makeGuess_singleton
        (fun x hx => (List.mem_singleton.1 hx) ▸ hw) hw
  simp only [solveGo]
  rw [hguess, if_pos rfl]

/-- C7 witness: the singleton guarantee applied concretely. -/
theorem c7_witness :
    makeGuess ws2 [wA] [wB] = wB ∧ solveGo ws2 wA wB 1 [wB] 2 = some 2 :=
  ⟨(c7_singleton_candidate ws2 [wA] wA wB (by decide) (by decide)).1,
    (c7_singleton_candidate ws2 [wA] wA wB (by decide) (by decide)).2 0 2 (by decide)⟩

/-- C8 counterexample: an existing word-list file with zero lines makes
`loadWords` return exit code 0 (success) with an empty dictionary — no
`EmptyDictionary` condition is signalled and `main` proceeds. -/
theorem c8_counterexample : loadWords (some []) = (0, []) := rfl

/-- C8 (amended): the loader reports an error (exit code 1, which makes
`main` abort) exactly when the file fails to open; a file that yields zero
words is loaded successfully as an empty dictionary and the program runs on. -/
theorem c8_error_iff_missing_file (file : Option (List Str)) :
    ((loadWords file).1 = 1 ↔ file = none) ∧ (loadWords (some [])).2 = [] := by
  constructor
  · cases file with
    | none => simp [loadWords]
    | some lines => simp [loadWords]
  · rfl

/-- C8 witness: the amended characterisation applied to a missing file. -/
theorem c8_witness : (loadWords none).1 = 1 :=
  ((c8_error_iff_missing_file none).1).mpr rfl

/-- C9 counterexample: an absent first-guess cache file is fatal, not a
fallback — `loadGuess` prints "File not found" and returns 1, upon which
`main` returns 1 before any game is played. -/
theorem c9_counterexample : (loadGuess none ws2).1 = 1 ∧ (loadGuess none ws2).2 = [] :=
  ⟨rfl, rfl⟩

/-- C9 (amended): only a cache file that exists but whose first line is empty
is handled by recomputation (`makeGuess(words, words)`, written back) with
success code 0; a file with a non-empty first line is trusted verbatim; an
absent or unopenable file returns exit code 1 and `main` aborts. -/
theorem c9_cache_fallback (ws : List Str) (line : Str) :
    (loadGuess none ws).1 = 1 ∧
    loadGuess (some []) ws = (0, makeGuess ws ws ws) ∧
    (line ≠ [] → loadGuess (some line) ws = (0, line)) := by
  refine ⟨rfl, rfl, fun h => ?_⟩
  simp only [loadGuess]
  rw [if_pos h]

/-- C9 witness: the amended behaviour applied concretely. -/
theorem c9_witness : loadGuess (some wA) ws2 = (0, wA) :=
  (c9_cache_fallback ws2 wA).2.2 (by decide)

/-- C10: the memoised `getResult` is observationally the pure two-pass
computation. If every entry of `guessWordResult` was written by the
computation itself (which is the only write in the source), then the
memoised call returns exactly the fresh value, leaves the table well-formed,
and the entry stored under `g ++ w` is exactly the computed value. -/
theorem c10_memo_transparent (d : Bool) (tbl : List (Str × Str)) (g w : Str)
    (hgood : goodTbl d tbl) (hg : g.length = 5) (hw : w.length = 5) :
    (getResultMemo d tbl g w).1 = getResult d g w ∧
    goodTbl d (getResultMemo d tbl g w).2 ∧
    memoLookup (getResultMemo d tbl g w).2 (g ++ w) = some (getResult d g w) := by
  cases hl : memoLookup tbl (g ++ w) with
  | none =>
    refine ⟨by simp [getResultMemo, hl], ?_, ?_⟩
    · simp only [getResultMemo, hl]
      intro e he
      rcases List.mem_cons.1 he with rfl | hmem
      · exact ⟨g, w, hg, hw, rfl, rfl⟩
      · exact hgood e hmem
    · simp only [getResultMemo, hl]
      unfold memoLookup
      rw [if_pos rfl]
  | some r =>
    obtain ⟨e, hmem, hk, hr⟩ := memoLookup_some hl
    obtain ⟨g', w', hg', hw', hkey, hval⟩ := hgood e hmem
    obtain ⟨hgg, hww⟩ := List.append_inj (by rw [← hkey, hk]) (hg'.trans hg.symm)
    have hrval : r = getResult d g w := by
      rw [← hr, hval, hgg, hww]
    refine ⟨?_, ?_, ?_⟩
    · simp only [getResultMemo, hl]
      exact hrval
    · simpa only [getResultMemo, hl] using hgood
    · simp only [getResultMemo, hl]
      rw [hrval]

/-- C10 witness: memo transparency applied to a table holding one entry
previously written by the computation. -/
theorem c10_witness :
    (getResultMemo false tblEx wA wB).1 = getResult false wA wB ∧
    memoLookup (getResultMemo false tblEx wA wB).2 (wA ++ wB) =
      some (getResult false wA wB) := by
  have hgood : goodTbl false tblEx := by
    intro e he
    simp only [tblEx, List.mem_singleton] at he
    subst he
    exact ⟨wA, wB, by decide, by decide, rfl, by decide⟩
  have h := c10_memo_transparent false tblEx wA wB hgood (by decide) (by decide)
  exact ⟨h.1, h.2.2⟩

end WordleBot
